import Mathlib

set_option maxRecDepth 8000

/-!
Verification of the VoltZ ingestion-and-retrieval pipeline
(backend/src/services: datasheet_ingestion.py, embeddings.py, vector_db.py).

Texts are modelled as lists of characters. Python's default str.strip
whitespace set is modelled by Char.isWhitespace. Metadata dictionaries:
the numeric chunk fields (chunk_index, chunk_start, chunk_end,
chunk_length, total_text_length) are modelled explicitly; the
source_metadata key-value pairs merged into every chunk are carried
unchanged by the source code and play no role in the verified
properties, so they are omitted from the record.

Python len() is modelled by pyLen, a tail-recursive length (kept
iterative so that concrete runs of the chunker evaluate inside the
kernel); pyLen_eq_length identifies it with List.length, which all
statements use.
-/

namespace VoltZ

/-- Python len(), written with an accumulator. -/
def pyLenAux (acc : Nat) : List α → Nat
  | [] => acc
  | _ :: l => pyLenAux (acc + 1) l

/-- Python len() of a list. -/
def pyLen (l : List α) : Nat := pyLenAux 0 l

/-- DatasheetIngestionService.min_chunk_size (datasheet_ingestion.py line 38). -/
def minChunkSize : Nat := 1000

/-- DatasheetIngestionService.max_chunk_size (line 39). -/
def maxChunkSize : Nat := 2000

/-- DatasheetIngestionService.overlap_size (line 40). -/
def overlapSize : Nat := 200

/-- Python str.strip(): remove leading and trailing whitespace. -/
def pyStrip (s : List Char) : List Char :=
  ((s.dropWhile Char.isWhitespace).reverse.dropWhile Char.isWhitespace).reverse

/-- Whether the pattern pat occurs in text at index p (full match). -/
def matchAt (t pat : List Char) (p : Nat) : Bool :=
  (t.drop p).take pat.length == pat

/-- Scan downward from q to a for the highest index where pat matches:
the backward scan of Python str.rfind. -/
def rfindDown (t pat : List Char) (a : Nat) : Nat → Option Nat
  | 0 => if a = 0 ∧ matchAt t pat 0 = true then some 0 else none
  | q + 1 =>
    if q + 1 < a then none
    else if matchAt t pat (q + 1) = true then some (q + 1)
    else rfindDown t pat a q

/-- Python text.rfind(pat, a, b): highest index p with a ≤ p,
p + pat.length ≤ b and pat matching at p; none when absent
(Python returns -1, modelled as none at the call sites). -/
def rfind (t pat : List Char) (a b : Nat) : Option Nat :=
  if pat.length ≤ b then rfindDown t pat a (b - pat.length) else none

/-- The six sentence-terminating delimiters of create_text_chunks (line 126). -/
def sentencePatterns : List (List Char) :=
  [['.', ' '], ['!', ' '], ['?', ' '], ['.', '\n'], ['!', '\n'], ['?', '\n']]

/-- One step of the loop in lines 126-129: pos = rfind(pattern, a, b)
(-1 when absent); if pos > sentence_end then sentence_end = pos + len(pattern). -/
def seStep (t : List Char) (a b : Nat) (se : Int) (pat : List Char) : Int :=
  let pos : Int :=
    match rfind t pat a b with
    | some p => (p : Int)
    | none => -1
  if se < pos then pos + pat.length else se

/-- Lines 124-129: fold the six patterns starting from sentence_end = -1. -/
def sentenceEndFold (t : List Char) (a b : Nat) : Int :=
  sentencePatterns.foldl (seStep t a b) (-1)

/-- Tentative chunk end, line 118: end_pos = min(start_pos + max_chunk_size, len(text)). -/
def windowHi (t : List Char) (s : Nat) : Nat :=
  min (s + maxChunkSize) (pyLen t)

/-- Search-window start, line 123: max(start_pos + min_chunk_size, end_pos - 200). -/
def windowLo (t : List Char) (s : Nat) : Nat :=
  max (s + minChunkSize) (windowHi t s - 200)

/-- Lines 117-132: final end position of the chunk that starts at s. -/
def computeEnd (t : List Char) (s : Nat) : Nat :=
  if windowHi t s < pyLen t then
    let se := sentenceEndFold t (windowLo t s) (windowHi t s)
    if 0 < se then se.toNat else windowHi t s
  else windowHi t s

/-- Lines 152-156: next_start = max(start_pos + min_chunk_size,
end_pos - overlap_size), forced to start_pos + min_chunk_size when
that does not strictly exceed start_pos. -/
def nextStartPos (t : List Char) (s : Nat) : Nat :=
  let n := max (s + minChunkSize) (computeEnd t s - overlapSize)
  if n ≤ s then s + minChunkSize else n

/-- The numeric chunk metadata written at lines 139-146. -/
structure ChunkMeta where
  chunk_index : Nat
  chunk_start : Nat
  chunk_end : Nat
  chunk_length : Nat
  total_text_length : Nat
deriving DecidableEq

/-- The while-loop of create_text_chunks (lines 116-162), with explicit
fuel; createTextChunks supplies fuel len(text) + 1, which is shown
sufficient (the cursor advances by at least min_chunk_size = 1000 each
iteration, see chunkLoop_fuel_congr). -/
def chunkLoop (t : List Char) : Nat → Nat → Nat → List (List Char × ChunkMeta)
  | 0, _, _ => []
  | fuel + 1, s, idx =>
    if s < pyLen t then
      let e := computeEnd t s
      let chunkText := pyStrip ((t.drop s).take (e - s))
      if minChunkSize ≤ pyLen chunkText ∨ pyLen t ≤ s + pyLen chunkText then
        (chunkText, ⟨idx, s, e, pyLen chunkText, pyLen t⟩) ::
          chunkLoop t fuel (nextStartPos t s) (idx + 1)
      else
        chunkLoop t fuel (nextStartPos t s) idx
    else []

/-- DatasheetIngestionService.create_text_chunks (lines 94-165): returns []
when the stripped text is empty (line 109), else runs the chunking loop
from start_pos = 0, chunk_index = 0. -/
def createTextChunks (t : List Char) : List (List Char × ChunkMeta) :=
  if pyStrip t = [] then [] else chunkLoop t (pyLen t + 1) 0 0

/-- A sentence-terminating delimiter occurs in t at index p. -/
def delimAt (t : List Char) (p : Nat) : Bool :=
  sentencePatterns.any (fun pat => matchAt t pat p)

/- Concrete texts used as witnesses and counterexamples for the chunker. -/

/-- A 1101-character text: one letter then 1100 blanks. -/
def t1ex : List Char := 'a' :: List.replicate 1100 ' '

/-- A two-character text with a leading blank. -/
def t2ex : List Char := [' ', 'a']

/-- The twelve characters holding all six sentence delimiters of t3ex. -/
def t3mid : List Char := ['.', ' ', '!', ' ', '?', ' ', '.', '\n', '!', '\n', '?', '\n']

/-- The last 112 characters of t3ex. -/
def t3tail : List Char := t3mid ++ List.replicate 100 'a'

/-- A 2100-character text whose only sentence delimiters sit close
together, starting at index 1988. -/
def t3ex : List Char := List.replicate 1988 'a' ++ t3tail

/-- A 1001-character text with a leading blank. -/
def t5ex : List Char := ' ' :: List.replicate 1000 'a'

/-- A 1000-character whitespace-free text. -/
def t0ex : List Char := List.replicate 1000 'a'

/-! EmbeddingService (embeddings.py). The SentenceTransformer encoder is
external: it is modelled as an arbitrary function enc from texts to
embeddings, applied to each text independently (model.encode maps over
its input list). The lazy model handle (self._model) is modelled by a
Boolean loaded-flag; _get_model sets it. -/

/-- The two ValueError messages raised by EmbeddingService (lines 49 and 71),
named after the spec's error taxonomy. -/
inductive EmbError where
  | emptyInput
  | allEmpty
deriving DecidableEq

/-- The lazily-initialized encoder handle of EmbeddingService. -/
structure EmbSt where
  modelLoaded : Bool
deriving DecidableEq

/-- EmbeddingService._get_model (lines 28-36): ensures the encoder is loaded. -/
def getModel (st : EmbSt) : EmbSt := { st with modelLoaded := true }

/-- EmbeddingService.generate_embedding (lines 38-53): raise on blank text,
else load the model and encode the single text. -/
def generateEmbedding (E : Type) (enc : List Char → E) (st : EmbSt) (text : List Char) :
    Except EmbError E × EmbSt :=
  if pyStrip text = [] then (.error .emptyInput, st)
  else (.ok (enc text), getModel st)

/-- EmbeddingService.generate_embeddings (lines 55-75): empty list returns
[] at once (line 65); blank entries are filtered out (line 69); raise
when none survive (line 71); else load the model and encode the
survivors in order. -/
def generateEmbeddings (E : Type) (enc : List Char → E) (st : EmbSt)
    (texts : List (List Char)) : Except EmbError (List E) × EmbSt :=
  if texts = [] then (.ok [], st)
  else
    let valid := texts.filter (fun x => !(pyStrip x).isEmpty)
    if valid = [] then (.error .allEmpty, st)
    else (.ok (valid.map enc), getModel st)

/-! VectorDBService (vector_db.py). ChromaDB is external: the collection
is modelled as the list of stored (id, text, metadata) records in
insertion order, plus the created-flag set by _get_collection. uuid4
draws are external randomness; fresh ids are modelled by a counter
supply, so one add call returns consecutive previously-unused ids. -/

/-- The ValueError of add_document_chunks (line 98), named after the spec. -/
inductive VDBError where
  | lengthMismatch
deriving DecidableEq

/-- The vector-database state: collection existence flag, stored records,
and the supply counter standing for the uuid4 generator. -/
structure VDB (M : Type) where
  created : Bool
  records : List (Nat × (List Char × M))
  nextId : Nat

/-- VectorDBService.add_document_chunks (lines 82-116): raise LengthMismatch
when the chunk and metadata counts differ (lines 97-98, before
_get_collection is called, so the state is returned untouched); else
get-or-create the collection, draw one fresh id per chunk, append the
records, and return the ids in input order. -/
def addDocumentChunks (M : Type) (st : VDB M) (chunks : List (List Char))
    (metas : List M) : Except VDBError (List Nat) × VDB M :=
  if chunks.length ≠ metas.length then (.error .lengthMismatch, st)
  else
    let ids := List.range' st.nextId chunks.length
    (.ok ids,
      { created := true
        records := st.records ++ ids.zip (chunks.zip metas)
        nextId := st.nextId + chunks.length })

/-! DatasheetIngestionService.batch_ingest_datasheets (lines 239-270).
The filesystem and the whole per-document ingest pipeline are external
to this claim: os.path.exists is an arbitrary predicate ex, and
ingest_datasheet an arbitrary fallible function ing.  Python dicts are
modelled as association lists with insert-or-replace semantics. -/

/-- One entry of datasheet_configs: config.get("pdf_path") may be absent
(none) and config.get("component_info", {}) is carried opaquely. -/
structure IngestConfig (I : Type) where
  pdfPath : Option (List Char)
  componentInfo : I

/-- Python dict assignment d[k] = v: replace in place, else append. -/
def dictInsert (K V : Type) [DecidableEq K] (k : K) (v : V) :
    List (K × V) → List (K × V)
  | [] => [(k, v)]
  | (k', v') :: d =>
    if k' = k then (k, v) :: d else (k', v') :: dictInsert K V k v d

/-- Python dict lookup d[k] as an Option. -/
def dictLookup (K V : Type) [DecidableEq K] (k : K) : List (K × V) → Option V
  | [] => none
  | (k', v) :: d => if k' = k then some v else dictLookup K V k d

/-- The result recorded for one config entry (lines 254-268): a falsy or
non-existing path gives [], an ingestion exception gives [], and a
successful ingestion gives its ids. -/
def entryResult (I : Type) (ex : List Char → Bool)
    (ing : List Char → I → Except Unit (List Nat)) (c : IngestConfig I) : List Nat :=
  match c.pdfPath with
  | none => []
  | some p =>
    if p = [] then []
    else if ex p = false then []
    else
      match ing p c.componentInfo with
      | .ok ids => ids
      | .error _ => []

/-- batch_ingest_datasheets (lines 239-270): fold the configs into the
results dict, one dict assignment per config, keyed by the raw
pdf_path value. -/
def batchIngestDatasheets (I : Type) (ex : List Char → Bool)
    (ing : List Char → I → Except Unit (List Nat))
    (configs : List (IngestConfig I)) : List (Option (List Char) × List Nat) :=
  configs.foldl
    (fun d c => dictInsert (Option (List Char)) (List Nat) c.pdfPath (entryResult I ex ing c) d)
    []

/-- A concrete existence predicate for the batch-ingestion witness:
only the paths a and b exist. -/
def ex0 : List Char → Bool := fun p => p = ['a'] ∨ p = ['b']

/-- A concrete ingestion function for the batch-ingestion witness:
path b raises, anything else ingests as two chunks with ids 7 and 8. -/
def ing0 : List Char → Unit → Except Unit (List Nat) := fun p _ =>
  if p = ['b'] then .error () else .ok [7, 8]

/-- Three configs for the batch-ingestion witness: one good path, one
missing path, one path whose ingestion raises. -/
def cfgs0 : List (IngestConfig Unit) :=
  [⟨some ['a'], ()⟩, ⟨some ['x'], ()⟩, ⟨some ['b'], ()⟩]

end VoltZ

namespace VoltZ

/-! Basic lemmas about pyLen and pyStrip. -/

theorem pyLenAux_eq (l : List α) : ∀ acc, pyLenAux acc l = acc + l.length := by
  induction l with
  | nil => intro acc; simp [pyLenAux]
  | cons a l ih => intro acc; simp [pyLenAux, ih]; omega

theorem pyLen_eq_length (l : List α) : pyLen l = l.length := by
  simp [pyLen, pyLenAux_eq]

theorem dropWhile_eq_self_of_false (p : α → Bool) (l : List α)
    (h : ∀ c ∈ l, p c = false) : l.dropWhile p = l := by
  cases l with
  | nil => rfl
  | cons a l =>
    have ha : p a = false := h a (List.mem_cons_self a l)
    simp [List.dropWhile, ha]

theorem pyStrip_eq_self (l : List Char) (h : ∀ c ∈ l, c.isWhitespace = false) :
    pyStrip l = l := by
  unfold pyStrip
  rw [dropWhile_eq_self_of_false _ _ h]
  rw [dropWhile_eq_self_of_false _ _ (by intro c hc; exact h c (List.mem_reverse.mp hc))]
  exact List.reverse_reverse l

theorem pyStrip_length_le (l : List Char) : (pyStrip l).length ≤ l.length := by
  unfold pyStrip
  calc ((l.dropWhile Char.isWhitespace).reverse.dropWhile Char.isWhitespace).reverse.length
      = ((l.dropWhile Char.isWhitespace).reverse.dropWhile Char.isWhitespace).length := by
        rw [List.length_reverse]
    _ ≤ (l.dropWhile Char.isWhitespace).reverse.length :=
        (List.dropWhile_sublist _).length_le
    _ = (l.dropWhile Char.isWhitespace).length := List.length_reverse _
    _ ≤ l.length := (List.dropWhile_sublist _).length_le

theorem pyStrip_eq_nil_iff (l : List Char) :
    pyStrip l = [] ↔ ∀ c ∈ l, c.isWhitespace = true := by
  unfold pyStrip
  rw [List.reverse_eq_nil_iff, List.dropWhile_eq_nil_iff]
  constructor
  · intro h c hc
    by_cases hw : c ∈ l.dropWhile Char.isWhitespace
    · exact h c (List.mem_reverse.mpr hw)
    · have hsplit := List.takeWhile_append_dropWhile (p := Char.isWhitespace) (l := l)
      have hcl : c ∈ l.takeWhile Char.isWhitespace ++ l.dropWhile Char.isWhitespace := by
        rw [hsplit]; exact hc
      rcases List.mem_append.mp hcl with h1 | h1
      · exact List.mem_takeWhile_imp h1
      · exact absurd h1 hw
  · intro h c hc
    exact h c ((List.dropWhile_sublist _).subset (List.mem_reverse.mp hc))

/-! Soundness, completeness and scan lemmas for rfind. -/

theorem rfindDown_sound (t pat : List Char) (a : Nat) :
    ∀ q p, rfindDown t pat a q = some p →
      a ≤ p ∧ p ≤ q ∧ matchAt t pat p = true := by
  intro q
  induction q with
  | zero =>
    intro p h
    unfold rfindDown at h
    split at h
    · rename_i hc
      cases h
      exact ⟨Nat.le_of_eq hc.1, Nat.le_refl 0, hc.2⟩
    · cases h
  | succ q ih =>
    intro p h
    unfold rfindDown at h
    split at h
    · cases h
    · split at h
      · rename_i hlt hm
        cases h
        exact ⟨Nat.le_of_not_lt hlt, Nat.le_refl _, hm⟩
      · obtain ⟨h1, h2, h3⟩ := ih p h
        exact ⟨h1, Nat.le_succ_of_le h2, h3⟩

theorem rfindDown_hit (t pat : List Char) (a p : Nat) (ha : a ≤ p)
    (hm : matchAt t pat p = true) : rfindDown t pat a p = some p := by
  cases p with
  | zero =>
    unfold rfindDown
    rw [if_pos ⟨Nat.le_zero.mp ha, hm⟩]
  | succ q =>
    unfold rfindDown
    rw [if_neg (by omega), if_pos hm]

theorem rfindDown_skip (t pat : List Char) (a : Nat) :
    ∀ q p, p ≤ q → a ≤ p →
      (∀ r, p < r → r ≤ q → matchAt t pat r = false) →
      rfindDown t pat a q = rfindDown t pat a p := by
  intro q
  induction q with
  | zero => intro p h1 _ _; rw [Nat.le_zero.mp h1]
  | succ q ih =>
    intro p h1 h2 h3
    rcases Nat.lt_or_ge p (q + 1) with hlt | hge
    · have step : rfindDown t pat a (q + 1) = rfindDown t pat a q := by
        conv_lhs => unfold rfindDown
        rw [if_neg (by omega), if_neg (by simp [h3 (q + 1) hlt (Nat.le_refl _)])]
      rw [step]
      exact ih p (by omega) h2 (fun r hr1 hr2 => h3 r hr1 (by omega))
    · have hpq : p = q + 1 := by omega
      rw [hpq]

theorem rfindDown_complete (t pat : List Char) (a : Nat) :
    ∀ q p, a ≤ p → p ≤ q → matchAt t pat p = true →
      ∃ r, rfindDown t pat a q = some r := by
  intro q
  induction q with
  | zero =>
    intro p h1 h2 h3
    have hp : p = 0 := Nat.le_zero.mp h2
    subst hp
    exact ⟨0, rfindDown_hit t pat a 0 h1 h3⟩
  | succ q ih =>
    intro p h1 h2 h3
    unfold rfindDown
    rw [if_neg (by omega)]
    by_cases hm : matchAt t pat (q + 1) = true
    · rw [if_pos hm]; exact ⟨q + 1, rfl⟩
    · rw [if_neg hm]
      rcases Nat.lt_or_ge p (q + 1) with hlt | hge
      · exact ih p h1 (by omega) h3
      · have : p = q + 1 := by omega
        subst this
        exact absurd h3 hm

theorem rfind_sound (t pat : List Char) (a b p : Nat)
    (h : rfind t pat a b = some p) :
    a ≤ p ∧ p + pat.length ≤ b ∧ matchAt t pat p = true := by
  unfold rfind at h
  split at h
  · rename_i hb
    obtain ⟨h1, h2, h3⟩ := rfindDown_sound t pat a _ p h
    exact ⟨h1, by omega, h3⟩
  · cases h

theorem rfind_complete (t pat : List Char) (a b p : Nat) (ha : a ≤ p)
    (hb : p + pat.length ≤ b) (hm : matchAt t pat p = true) :
    ∃ r, rfind t pat a b = some r := by
  unfold rfind
  rw [if_pos (by omega)]
  exact rfindDown_complete t pat a (b - pat.length) p ha (by omega) hm

/-! Lemmas about the sentence-end fold of lines 124-129. -/

theorem seStep_ge (t : List Char) (a b : Nat) (se : Int) (pat : List Char) :
    se ≤ seStep t a b se pat := by
  simp only [seStep]
  rcases hr : rfind t pat a b with _ | p
  · show se ≤ if se < (-1 : Int) then (-1 : Int) + pat.length else se
    have : (0 : Int) ≤ (pat.length : Int) := Int.ofNat_nonneg _
    split_ifs <;> omega
  · show se ≤ if se < (p : Int) then (p : Int) + pat.length else se
    have : (0 : Int) ≤ (pat.length : Int) := Int.ofNat_nonneg _
    split_ifs <;> omega

theorem seStep_some (t : List Char) (a b : Nat) (se : Int) (pat : List Char)
    (p : Nat) (hr : rfind t pat a b = some p) :
    seStep t a b se pat = if se < (p : Int) then (p : Int) + pat.length else se := by
  simp only [seStep]
  rw [hr]

theorem seStep_none (t : List Char) (a b : Nat) (se : Int) (pat : List Char)
    (hr : rfind t pat a b = none) (hse : -1 ≤ se) :
    seStep t a b se pat = se := by
  simp only [seStep]
  rw [hr]
  show (if se < (-1 : Int) then (-1 : Int) + pat.length else se) = se
  exact if_neg (by omega)

theorem seFold_ge (t : List Char) (a b : Nat) (L : List (List Char)) :
    ∀ se : Int, se ≤ L.foldl (seStep t a b) se := by
  induction L with
  | nil => intro se; exact Int.le_refl se
  | cons pat L ih =>
    intro se
    calc se ≤ seStep t a b se pat := seStep_ge t a b se pat
      _ ≤ L.foldl (seStep t a b) (seStep t a b se pat) := ih _
      _ = (pat :: L).foldl (seStep t a b) se := by rw [List.foldl_cons]

theorem seFold_sound (t : List Char) (a b : Nat) (L : List (List Char)) :
    ∀ se : Int, -1 ≤ se →
      L.foldl (seStep t a b) se = se ∨
        ∃ pat ∈ L, ∃ p, rfind t pat a b = some p ∧
          L.foldl (seStep t a b) se = (p : Int) + pat.length := by
  induction L with
  | nil => intro se _; exact Or.inl rfl
  | cons pat L ih =>
    intro se hse
    rw [List.foldl_cons]
    rcases hr : rfind t pat a b with _ | p
    · rw [seStep_none t a b se pat hr hse]
      rcases ih se hse with h1 | ⟨pat', hp', p', hrp, he⟩
      · exact Or.inl h1
      · exact Or.inr ⟨pat', List.mem_cons_of_mem pat hp', p', hrp, he⟩
    · rw [seStep_some t a b se pat p hr]
      by_cases hlt : se < (p : Int)
      · rw [if_pos hlt]
        have hse' : (-1 : Int) ≤ (p : Int) + pat.length := by
          have : (0 : Int) ≤ (p : Int) := Int.ofNat_nonneg p
          have : (0 : Int) ≤ (pat.length : Int) := Int.ofNat_nonneg _
          omega
        rcases ih _ hse' with h1 | ⟨pat', hp', p', hrp, he⟩
        · exact Or.inr ⟨pat, List.mem_cons_self pat L, p, hr, h1⟩
        · exact Or.inr ⟨pat', List.mem_cons_of_mem pat hp', p', hrp, he⟩
      · rw [if_neg hlt]
        rcases ih se hse with h1 | ⟨pat', hp', p', hrp, he⟩
        · exact Or.inl h1
        · exact Or.inr ⟨pat', List.mem_cons_of_mem pat hp', p', hrp, he⟩

theorem seFold_found (t : List Char) (a b : Nat) (L : List (List Char)) :
    ∀ se : Int, -1 ≤ se → ∀ pat ∈ L, ∀ p, rfind t pat a b = some p →
      (0 : Int) ≤ L.foldl (seStep t a b) se := by
  induction L with
  | nil => intro se _ pat h; cases h
  | cons pat0 L ih =>
    intro se hse pat hmem p hr
    rw [List.foldl_cons]
    rcases List.mem_cons.mp hmem with heq | htail
    · subst heq
      have h0 : (0 : Int) ≤ seStep t a b se pat := by
        rw [seStep_some t a b se pat p hr]
        have : (0 : Int) ≤ (p : Int) := Int.ofNat_nonneg p
        have : (0 : Int) ≤ (pat.length : Int) := Int.ofNat_nonneg _
        split_ifs <;> omega
      exact le_trans h0 (seFold_ge t a b L _)
    · exact ih (seStep t a b se pat0) (le_trans hse (seStep_ge t a b se pat0)) pat htail p hr

theorem sentencePatterns_length : ∀ pat ∈ sentencePatterns, pat.length = 2 := by
  decide

theorem sentenceEndFold_pos_sound (t : List Char) (a b : Nat)
    (h : 0 < sentenceEndFold t a b) :
    ∃ pat ∈ sentencePatterns, ∃ p, rfind t pat a b = some p ∧
      sentenceEndFold t a b = (p : Int) + 2 := by
  rcases seFold_sound t a b sentencePatterns (-1) (Int.le_refl _) with h1 | ⟨pat, hp, p, hr, he⟩
  · unfold sentenceEndFold at h
    omega
  · refine ⟨pat, hp, p, hr, ?_⟩
    unfold sentenceEndFold
    rw [he, sentencePatterns_length pat hp]
    rfl

theorem sentenceEndFold_found (t : List Char) (a b : Nat) (pat : List Char)
    (hmem : pat ∈ sentencePatterns) (p : Nat) (hr : rfind t pat a b = some p) :
    0 < sentenceEndFold t a b := by
  have h0 : (0 : Int) ≤ sentenceEndFold t a b :=
    seFold_found t a b sentencePatterns (-1) (Int.le_refl _) pat hmem p hr
  rcases seFold_sound t a b sentencePatterns (-1) (Int.le_refl _) with h1 | ⟨pat', hp', p', hr', he'⟩
  · unfold sentenceEndFold at h0 ⊢
    omega
  · unfold sentenceEndFold
    rw [he']
    have : (0 : Int) ≤ (p' : Int) := Int.ofNat_nonneg p'
    have hl : pat'.length = 2 := sentencePatterns_length pat' hp'
    rw [hl]
    omega

/-! Lemmas about computeEnd and nextStartPos. -/

theorem windowHi_eq (t : List Char) (s : Nat) :
    windowHi t s = min (s + 2000) t.length := by
  unfold windowHi maxChunkSize
  rw [pyLen_eq_length]

theorem windowLo_eq (t : List Char) (s : Nat) :
    windowLo t s = max (s + 1000) (min (s + 2000) t.length - 200) := by
  unfold windowLo minChunkSize
  rw [windowHi_eq]

theorem computeEnd_last (t : List Char) (s : Nat) (h : t.length ≤ s + 2000) :
    computeEnd t s = t.length := by
  unfold computeEnd
  rw [pyLen_eq_length, windowHi_eq, Nat.min_eq_right h]
  rw [if_neg (Nat.lt_irrefl _)]

theorem computeEnd_mid (t : List Char) (s : Nat) (h : s + 2000 < t.length) :
    s + 1802 ≤ computeEnd t s ∧ computeEnd t s ≤ s + 2000 := by
  have hhi : windowHi t s = s + 2000 := by
    rw [windowHi_eq, Nat.min_eq_left (by omega)]
  have hlo : windowLo t s = s + 1800 := by
    rw [windowLo_eq, Nat.min_eq_left (by omega)]
    omega
  unfold computeEnd
  rw [pyLen_eq_length, hhi, if_pos h]
  by_cases hse : 0 < sentenceEndFold t (windowLo t s) (s + 2000)
  · rw [if_pos (by rw [← hhi] at hse ⊢; exact hse)]
    obtain ⟨pat, hp, p, hr, he⟩ := sentenceEndFold_pos_sound t (windowLo t s) (windowHi t s) (by rw [hhi]; exact hse)
    obtain ⟨h1, h2, h3⟩ := rfind_sound t pat (windowLo t s) (windowHi t s) p hr
    rw [hhi] at he
    rw [he]
    have hl2 : pat.length = 2 := sentencePatterns_length pat hp
    rw [hlo] at h1
    rw [hl2] at h2
    rw [hhi] at h2
    constructor
    · omega
    · omega
  · rw [if_neg (by rw [← hhi] at hse ⊢; exact hse)]
    omega

theorem computeEnd_bounds (t : List Char) (s : Nat) (h : s < t.length) :
    s < computeEnd t s ∧ computeEnd t s ≤ t.length := by
  rcases Nat.le_total t.length (s + 2000) with hle | hlt0
  · rw [computeEnd_last t s hle]
    exact ⟨h, Nat.le_refl _⟩
  · rcases Nat.eq_or_lt_of_le hlt0 with heq | hlt
    · rw [computeEnd_last t s (by omega)]
      exact ⟨h, Nat.le_refl _⟩
    · obtain ⟨h1, h2⟩ := computeEnd_mid t s hlt
      exact ⟨by omega, by omega⟩

theorem computeEnd_boundary (t : List Char) (s : Nat) (h : s + 2000 < t.length)
    (p0 : Nat) (hlo : windowLo t s ≤ p0) (hhi : p0 + 2 ≤ windowHi t s)
    (hdel : delimAt t p0 = true) :
    ∃ p, windowLo t s ≤ p ∧ p + 2 ≤ windowHi t s ∧ delimAt t p = true ∧
      computeEnd t s = p + 2 := by
  obtain ⟨pat, hpat, hm⟩ := List.any_eq_true.mp hdel
  have hl2 : pat.length = 2 := sentencePatterns_length pat hpat
  obtain ⟨q, hq⟩ := rfind_complete t pat (windowLo t s) (windowHi t s) p0 hlo
    (by rw [hl2]; exact hhi) hm
  have hpos : 0 < sentenceEndFold t (windowLo t s) (windowHi t s) :=
    sentenceEndFold_found t (windowLo t s) (windowHi t s) pat hpat q hq
  obtain ⟨pat', hp', p', hr', he'⟩ :=
    sentenceEndFold_pos_sound t (windowLo t s) (windowHi t s) hpos
  obtain ⟨h1, h2, h3⟩ := rfind_sound t pat' (windowLo t s) (windowHi t s) p' hr'
  have hl2' : pat'.length = 2 := sentencePatterns_length pat' hp'
  refine ⟨p', h1, by omega, ?_, ?_⟩
  · exact List.any_eq_true.mpr ⟨pat', hp', h3⟩
  · unfold computeEnd
    have hwh : windowHi t s = s + 2000 := by
      rw [windowHi_eq, Nat.min_eq_left (by omega)]
    rw [pyLen_eq_length, hwh, if_pos h, ← hwh, if_pos hpos, he']
    omega

theorem nextStartPos_ge (t : List Char) (s : Nat) :
    s + minChunkSize ≤ nextStartPos t s := by
  unfold nextStartPos
  by_cases h : max (s + minChunkSize) (computeEnd t s - overlapSize) ≤ s
  · rw [if_pos h]
  · rw [if_neg h]
    exact Nat.le_max_left _ _

theorem nextStartPos_gt (t : List Char) (s : Nat) : s < nextStartPos t s := by
  have := nextStartPos_ge t s
  unfold minChunkSize at this
  omega

theorem nextStartPos_mid (t : List Char) (s : Nat) (h : s + 2000 < t.length) :
    nextStartPos t s = computeEnd t s - 200 := by
  obtain ⟨h1, h2⟩ := computeEnd_mid t s h
  unfold nextStartPos overlapSize minChunkSize
  rw [Nat.max_eq_right (by omega)]
  rw [if_neg (by omega)]

/-! Structural lemmas about the chunking loop. -/

theorem chunkLoop_stop (t : List Char) (f s idx : Nat) (h : t.length ≤ s) :
    chunkLoop t f s idx = [] := by
  cases f with
  | zero => rfl
  | succ f =>
    rw [chunkLoop]
    rw [if_neg (by rw [pyLen_eq_length]; omega)]

theorem chunkLoop_succ (t : List Char) (f s idx : Nat) (hs : s < t.length) :
    chunkLoop t (f + 1) s idx =
      if minChunkSize ≤ (pyStrip ((t.drop s).take (computeEnd t s - s))).length ∨
          t.length ≤ s + (pyStrip ((t.drop s).take (computeEnd t s - s))).length then
        (pyStrip ((t.drop s).take (computeEnd t s - s)),
          ⟨idx, s, computeEnd t s,
            (pyStrip ((t.drop s).take (computeEnd t s - s))).length, t.length⟩) ::
          chunkLoop t f (nextStartPos t s) (idx + 1)
      else chunkLoop t f (nextStartPos t s) idx := by
  conv_lhs => rw [chunkLoop]
  simp only [pyLen_eq_length]
  rw [if_pos hs]

theorem chunkLoop_mem_inv (t : List Char) :
    ∀ f s idx c, c ∈ chunkLoop t f s idx →
      c.2.chunk_start < t.length ∧
      c.2.chunk_end = computeEnd t c.2.chunk_start ∧
      c.1 = pyStrip ((t.drop c.2.chunk_start).take (c.2.chunk_end - c.2.chunk_start)) ∧
      c.2.chunk_length = c.1.length ∧
      c.2.total_text_length = t.length := by
  intro f
  induction f with
  | zero => intro s idx c hc; cases hc
  | succ f ih =>
    intro s idx c hc
    by_cases hs : s < t.length
    · rw [chunkLoop_succ t f s idx hs] at hc
      split at hc
      · rcases List.mem_cons.mp hc with heq | htail
        · subst heq
          exact ⟨hs, rfl, rfl, rfl, rfl⟩
        · exact ih _ _ c htail
      · exact ih _ _ c hc
    · rw [chunkLoop_stop t _ s idx (by omega)] at hc
      cases hc

theorem chunkLoop_fuel_congr (t : List Char) :
    ∀ f g s idx, t.length ≤ s + f * 1000 → t.length ≤ s + g * 1000 →
      chunkLoop t f s idx = chunkLoop t g s idx := by
  intro f
  induction f with
  | zero =>
    intro g s idx hf _
    rw [chunkLoop_stop t 0 s idx (by omega), chunkLoop_stop t g s idx (by omega)]
  | succ f ih =>
    intro g s idx hf hg
    by_cases hs : s < t.length
    · cases g with
      | zero => omega
      | succ g =>
        have hnext := nextStartPos_ge t s
        unfold minChunkSize at hnext
        rw [chunkLoop_succ t f s idx hs, chunkLoop_succ t g s idx hs]
        have hrec := ih g (nextStartPos t s) (idx + 1) (by omega) (by omega)
        have hrec' := ih g (nextStartPos t s) idx (by omega) (by omega)
        split
        · rw [hrec]
        · rw [hrec']
    · rw [chunkLoop_stop t _ s idx (by omega), chunkLoop_stop t g s idx (by omega)]

theorem chunkLoop_count (t : List Char) :
    ∀ f s idx, 1000 * (chunkLoop t f s idx).length ≤ (t.length - s) + 999 := by
  intro f
  induction f with
  | zero => intro s idx; simp [chunkLoop]
  | succ f ih =>
    intro s idx
    by_cases hs : s < t.length
    · have hnext := nextStartPos_ge t s
      unfold minChunkSize at hnext
      have hcount : (chunkLoop t (f + 1) s idx).length ≤
          (chunkLoop t f (nextStartPos t s) (idx + 1)).length.max
            (chunkLoop t f (nextStartPos t s) idx).length + 1 := by
        rw [chunkLoop_succ t f s idx hs]
        split
        · simp [Nat.max_def]
          split <;> omega
        · simp [Nat.max_def]
          split <;> omega
      rcases Nat.lt_or_ge (nextStartPos t s) t.length with hlt | hge
      · have h1 := ih (nextStartPos t s) (idx + 1)
        have h2 := ih (nextStartPos t s) idx
        have : (chunkLoop t f (nextStartPos t s) (idx + 1)).length.max
            (chunkLoop t f (nextStartPos t s) idx).length ≤
            ((t.length - nextStartPos t s) + 999) / 1000 := by
          rw [Nat.max_le]
          constructor <;> [skip; skip] <;> omega
        have hmax := this
        have : t.length - nextStartPos t s + 1000 ≤ t.length - s := by omega
        omega
      · have hz1 : chunkLoop t f (nextStartPos t s) (idx + 1) = [] :=
          chunkLoop_stop t f _ _ hge
        have hz2 : chunkLoop t f (nextStartPos t s) idx = [] :=
          chunkLoop_stop t f _ _ hge
        rw [hz1, hz2] at hcount
        simp at hcount
        omega
    · rw [chunkLoop_stop t _ s idx (by omega)]
      simp

/-! Coverage of the text by the emitted chunk spans, for whitespace-free
texts (whitespace-free means no candidate chunk is shortened by
trimming, so every candidate passes the keep filter). -/

theorem slice_no_ws (t : List Char) (hw : ∀ c ∈ t, c.isWhitespace = false)
    (s k : Nat) :
    pyStrip ((t.drop s).take k) = (t.drop s).take k := by
  refine pyStrip_eq_self _ ?_
  intro c hc
  exact hw c (List.mem_of_mem_drop (List.mem_of_mem_take hc))

theorem slice_length (t : List Char) (s e : Nat) (hse : s ≤ e) (he : e ≤ t.length) :
    ((t.drop s).take (e - s)).length = e - s := by
  rw [List.length_take, List.length_drop]
  omega

theorem chunkLoop_cover (t : List Char) (hw : ∀ c ∈ t, c.isWhitespace = false) :
    ∀ f s idx, s < t.length → t.length ≤ s + f * 1000 →
      ∀ i, s ≤ i → i < t.length →
        ∃ c ∈ chunkLoop t f s idx, c.2.chunk_start ≤ i ∧ i < c.2.chunk_end := by
  intro f
  induction f with
  | zero => intro s idx hs hf; omega
  | succ f ih =>
    intro s idx hs hf i hsi hi
    have hbounds := computeEnd_bounds t s hs
    have hslice := slice_no_ws t hw s (computeEnd t s - s)
    have hlen : (pyStrip ((t.drop s).take (computeEnd t s - s))).length =
        computeEnd t s - s := by
      rw [hslice]
      exact slice_length t s (computeEnd t s) (by omega) hbounds.2
    rcases Nat.le_total t.length (s + 2000) with hlast | hmid0
    · have he : computeEnd t s = t.length := computeEnd_last t s hlast
      have hkeep : minChunkSize ≤ (pyStrip ((t.drop s).take (computeEnd t s - s))).length ∨
          t.length ≤ s + (pyStrip ((t.drop s).take (computeEnd t s - s))).length := by
        right
        rw [hlen, he]
        omega
      rw [chunkLoop_succ t f s idx hs, if_pos hkeep]
      refine ⟨_, List.mem_cons_self _ _, hsi, ?_⟩
      show i < computeEnd t s
      omega
    · rcases Nat.eq_or_lt_of_le hmid0 with heq | hmid
      · have he : computeEnd t s = t.length := computeEnd_last t s (by omega)
        have hkeep : minChunkSize ≤ (pyStrip ((t.drop s).take (computeEnd t s - s))).length ∨
            t.length ≤ s + (pyStrip ((t.drop s).take (computeEnd t s - s))).length := by
          right
          rw [hlen, he]
          omega
        rw [chunkLoop_succ t f s idx hs, if_pos hkeep]
        refine ⟨_, List.mem_cons_self _ _, hsi, ?_⟩
        show i < computeEnd t s
        omega
      · obtain ⟨hm1, hm2⟩ := computeEnd_mid t s hmid
        have hkeep : minChunkSize ≤ (pyStrip ((t.drop s).take (computeEnd t s - s))).length ∨
            t.length ≤ s + (pyStrip ((t.drop s).take (computeEnd t s - s))).length := by
          left
          rw [hlen]
          unfold minChunkSize
          omega
        rw [chunkLoop_succ t f s idx hs, if_pos hkeep]
        rcases Nat.lt_or_ge i (computeEnd t s) with hie | hie
        · exact ⟨_, List.mem_cons_self _ _, hsi, hie⟩
        · have hnext : nextStartPos t s = computeEnd t s - 200 := nextStartPos_mid t s hmid
          have hns := nextStartPos_ge t s
          unfold minChunkSize at hns
          obtain ⟨c, hc, hc1, hc2⟩ := ih (nextStartPos t s) (idx + 1)
            (by omega) (by omega) i (by omega) hi
          exact ⟨c, List.mem_cons_of_mem _ hc, hc1, hc2⟩

/-! Claim C1 (coverage). -/

/-- C1, counterexample: the text t1ex (one letter then 1100 blanks) is
longer than min_size, yet create_text_chunks returns no chunk at all
(both candidate chunks are shortened below min_size by trimming and
dropped), so the chunk spans do not cover the text. -/
theorem c1_counterexample :
    minChunkSize ≤ t1ex.length ∧
    ¬ ∀ i < t1ex.length, ∃ c ∈ createTextChunks t1ex,
        c.2.chunk_start ≤ i ∧ i < c.2.chunk_end := by
  constructor
  · simp [t1ex, minChunkSize]
  · intro h
    obtain ⟨c, hc, -, -⟩ := h 0 (by simp [t1ex])
    rw [show createTextChunks t1ex = [] from by decide] at hc
    cases hc

/-- C1, amended: for every text T with len(T) ≥ min_size (1000) that
contains no whitespace characters (so that trimming never shortens a
candidate chunk below the keep filter), the union of the
[chunk_start, chunk_end) spans of all chunks returned by
create_text_chunks covers [0, len(T)) with no gaps. -/
theorem c1_coverage_amended (t : List Char) (hw : ∀ c ∈ t, c.isWhitespace = false)
    (hl : minChunkSize ≤ t.length) :
    ∀ i < t.length, ∃ c ∈ createTextChunks t,
      c.2.chunk_start ≤ i ∧ i < c.2.chunk_end := by
  intro i hi
  unfold createTextChunks
  have hpos : 0 < t.length := by unfold minChunkSize at hl; omega
  have hne : pyStrip t ≠ [] := by
    rw [Ne, pyStrip_eq_nil_iff]
    intro hall
    obtain ⟨c, hc⟩ := List.exists_mem_of_ne_nil t (by
      intro h0
      rw [h0] at hpos
      exact Nat.lt_irrefl 0 hpos)
    have hct := hall c hc
    rw [hw c hc] at hct
    exact Bool.false_ne_true hct
  rw [if_neg hne, pyLen_eq_length]
  have hmul : t.length + 1 ≤ (t.length + 1) * 1000 := by
    calc t.length + 1 = (t.length + 1) * 1 := (Nat.mul_one _).symm
      _ ≤ (t.length + 1) * 1000 := Nat.mul_le_mul_left _ (by omega)
  exact chunkLoop_cover t hw (t.length + 1) 0 0 hpos (by omega) i (Nat.zero_le i) hi

/-- C1 witness: the amended coverage theorem applied to a concrete
1000-character whitespace-free text. -/
theorem c1_coverage_amended_witness :
    (∀ c ∈ t0ex, c.isWhitespace = false) ∧ minChunkSize ≤ t0ex.length ∧
    ∀ i < t0ex.length, ∃ c ∈ createTextChunks t0ex,
      c.2.chunk_start ≤ i ∧ i < c.2.chunk_end := by
  have hw : ∀ c ∈ t0ex, c.isWhitespace = false := by
    intro c hc
    unfold t0ex at hc
    rw [List.eq_of_mem_replicate hc]
    decide
  exact ⟨hw, by simp [t0ex, minChunkSize],
    c1_coverage_amended t0ex hw (by simp [t0ex, minChunkSize])⟩

/-! Claim C2 (short-text passthrough). -/

/-- C2, counterexample: the two-character text " a" is shorter than
min_size and trims to the non-empty "a", yet create_text_chunks
returns no chunk (the trimmed candidate fails both keep conditions). -/
theorem c2_counterexample :
    t2ex.length < minChunkSize ∧ pyStrip t2ex ≠ [] ∧ createTextChunks t2ex = [] := by
  decide

/-- C2, amended: for every non-empty text shorter than min_size (1000)
with no leading or trailing whitespace (so the trimmed form equals the
text), create_text_chunks returns exactly one chunk whose text equals
the (trimmed) input, with chunk_start = 0 and chunk_end = len(text). -/
theorem c2_short_text_amended (t : List Char) (hne : t ≠ []) (hs : pyStrip t = t)
    (hlen : t.length < minChunkSize) :
    createTextChunks t = [(t, ⟨0, 0, t.length, t.length, t.length⟩)] := by
  have hpos : 0 < t.length := List.length_pos.mpr hne
  have hmin : t.length < 1000 := by unfold minChunkSize at hlen; omega
  have hce : computeEnd t 0 = t.length := computeEnd_last t 0 (by omega)
  unfold createTextChunks
  rw [hs, if_neg hne, pyLen_eq_length]
  rw [chunkLoop_succ t t.length 0 0 hpos]
  have hslice : (t.drop 0).take (computeEnd t 0 - 0) = t := by
    rw [hce, List.drop_zero, Nat.sub_zero, List.take_length]
  rw [hslice, hs]
  rw [if_pos (Or.inr (by omega))]
  rw [hce]
  rw [chunkLoop_stop t t.length (nextStartPos t 0) 1 (by
    have := nextStartPos_ge t 0
    unfold minChunkSize at this
    omega)]

/-- C2 witness: the amended passthrough theorem applied to the
one-character text "a". -/
theorem c2_short_text_amended_witness :
    (['a'] : List Char) ≠ [] ∧ pyStrip ['a'] = ['a'] ∧
    (['a'] : List Char).length < minChunkSize ∧
    createTextChunks ['a'] = [(['a'], ⟨0, 0, 1, 1, 1⟩)] :=
  ⟨by decide, by decide, by decide,
    c2_short_text_amended ['a'] (by decide) (by decide) (by decide)⟩

/-! Claim C4 (progress and termination). -/

/-- C4: the cursor advances by at least min_size = 1000 on every
iteration; the loop therefore emits at most ceil(N / 1000) chunks, and
any fuel of at least len(text) + 1 steps computes the same (terminated)
result, which is what createTextChunks runs. -/
theorem c4_progress (t : List Char) :
    (∀ s, s + minChunkSize ≤ nextStartPos t s) ∧
    1000 * (createTextChunks t).length ≤ t.length + 999 ∧
    (∀ f, t.length + 1 ≤ f → chunkLoop t f 0 0 = chunkLoop t (t.length + 1) 0 0) := by
  refine ⟨nextStartPos_ge t, ?_, ?_⟩
  · unfold createTextChunks
    split
    · simp
    · have hcount := chunkLoop_count t (pyLen t + 1) 0 0
      rw [pyLen_eq_length] at hcount ⊢
      omega
  · intro f hf
    have h1 : f ≤ f * 1000 := by
      calc f = f * 1 := (Nat.mul_one f).symm
        _ ≤ f * 1000 := Nat.mul_le_mul_left f (by omega)
    have h2 : t.length + 1 ≤ (t.length + 1) * 1000 := by
      calc t.length + 1 = (t.length + 1) * 1 := (Nat.mul_one _).symm
        _ ≤ (t.length + 1) * 1000 := Nat.mul_le_mul_left _ (by omega)
    exact chunkLoop_fuel_congr t f (t.length + 1) 0 0 (by omega) (by omega)

/-- C4 witness: progress, chunk-count bound and fuel indifference at the
one-character text "a". -/
theorem c4_progress_witness :
    0 + minChunkSize ≤ nextStartPos ['a'] 0 ∧
    1000 * (createTextChunks ['a']).length ≤ (['a'] : List Char).length + 999 ∧
    chunkLoop ['a'] 5 0 0 = chunkLoop ['a'] ((['a'] : List Char).length + 1) 0 0 :=
  ⟨(c4_progress ['a']).1 0, (c4_progress ['a']).2.1,
    (c4_progress ['a']).2.2 5 (by decide)⟩

/-! Claim C5 (segment invariant). -/

/-- C5, counterexample: on the text t5ex (a blank then 1000 letters) the
first emitted chunk has chunk_start = 0, chunk_end = 1001 but
chunk_length = 1000, the trimmed length, not chunk_end - chunk_start. -/
theorem c5_counterexample :
    ¬ ∀ c ∈ createTextChunks t5ex,
      c.2.chunk_start < c.2.chunk_end ∧ c.2.chunk_end ≤ c.2.total_text_length ∧
      c.2.chunk_length = c.2.chunk_end - c.2.chunk_start := by
  decide

/-- C5, amended: every chunk metadata record satisfies
0 ≤ chunk_start < chunk_end ≤ total_text_length, and chunk_length
equals the length of the stored (trimmed) chunk text, which is at most
chunk_end - chunk_start, the pre-trim span. -/
theorem c5_invariant_amended (t : List Char) :
    ∀ c ∈ createTextChunks t,
      c.2.chunk_start < c.2.chunk_end ∧ c.2.chunk_end ≤ c.2.total_text_length ∧
      c.2.chunk_length = c.1.length ∧
      c.2.chunk_length ≤ c.2.chunk_end - c.2.chunk_start ∧
      c.2.total_text_length = t.length := by
  intro c hc
  unfold createTextChunks at hc
  split at hc
  · cases hc
  · obtain ⟨h1, h2, h3, h4, h5⟩ := chunkLoop_mem_inv t _ _ _ c hc
    have hb := computeEnd_bounds t c.2.chunk_start h1
    refine ⟨by omega, by omega, h4, ?_, h5⟩
    rw [h4, h3]
    exact le_trans (pyStrip_length_le _) (List.length_take_le _ _)

/-- C5 witness: the amended invariant at the single chunk produced from
a concrete 1000-character text. -/
theorem c5_invariant_amended_witness :
    ∃ c ∈ createTextChunks t0ex,
      c.2.chunk_start < c.2.chunk_end ∧ c.2.chunk_end ≤ c.2.total_text_length ∧
      c.2.chunk_length = c.1.length ∧
      c.2.chunk_length ≤ c.2.chunk_end - c.2.chunk_start ∧
      c.2.total_text_length = t0ex.length := by
  have h : createTextChunks t0ex = [(t0ex, ⟨0, 0, 1000, 1000, 1000⟩)] := by decide
  have hmem : (t0ex, (⟨0, 0, 1000, 1000, 1000⟩ : ChunkMeta)) ∈ createTextChunks t0ex := by
    rw [h]
    exact List.mem_cons_self _ _
  exact ⟨_, hmem, c5_invariant_amended t0ex _ hmem⟩

/-! Concrete evaluation facts for t3ex, established symbolically (the
2100-character text is handled through closed-form list lemmas; only
the shallow 112-character tail is ever evaluated). -/

theorem dropWhile_append_ge (p : Char → Bool) (lb : List Char)
    (h : ∀ c ∈ lb, p c = false) :
    ∀ la, lb.length ≤ (List.dropWhile p (la ++ lb)).length := by
  intro la
  induction la with
  | nil =>
    rw [List.nil_append, dropWhile_eq_self_of_false p lb h]
  | cons a la ih =>
    rw [List.cons_append, List.dropWhile_cons]
    split
    · exact ih
    · rw [List.length_cons, List.length_append]
      omega

theorem pyStrip_length_ge (l1 l2 : List Char)
    (h1 : ∀ c ∈ l1, c.isWhitespace = false) :
    l1.length ≤ (pyStrip (l1 ++ l2)).length := by
  cases l1 with
  | nil => exact Nat.zero_le _
  | cons a l1 =>
    unfold pyStrip
    rw [List.length_reverse]
    have hfront : List.dropWhile Char.isWhitespace ((a :: l1) ++ l2) = (a :: l1) ++ l2 := by
      rw [List.cons_append, List.dropWhile_cons,
        if_neg (by rw [h1 a (List.mem_cons_self a l1)]; simp), ← List.cons_append]
    rw [hfront]
    have hrev : ((a :: l1) ++ l2).reverse = l2.reverse ++ (a :: l1).reverse := by
      rw [List.reverse_append]
    rw [hrev]
    have := dropWhile_append_ge Char.isWhitespace (a :: l1).reverse
      (by intro c hc; exact h1 c (List.mem_reverse.mp hc)) l2.reverse
    rw [List.length_reverse] at this
    exact this

theorem t3ex_length : t3ex.length = 2100 := by
  simp [t3ex, t3tail, t3mid]

theorem t3ex_drop (j : Nat) : t3ex.drop (1988 + j) = t3tail.drop j := by
  unfold t3ex
  rw [show (1988 : Nat) = (List.replicate 1988 'a').length from by simp]
  exact List.drop_append j

theorem matchAt_t3 (pat : List Char) (j : Nat) :
    matchAt t3ex pat (1988 + j) = ((t3tail.drop j).take pat.length == pat) := by
  unfold matchAt
  rw [t3ex_drop]

theorem rfind_t3ex (pat : List Char) (hp : pat.length = 2) (k : Nat) (hk : k ≤ 10)
    (hm : ((t3tail.drop k).take 2 == pat) = true)
    (hr : ∀ j < 11, k < j → ((t3tail.drop j).take 2 == pat) = false) :
    rfind t3ex pat 1800 2000 = some (1988 + k) := by
  unfold rfind
  rw [if_pos (by rw [hp]; omega), hp]
  rw [show (2000 - 2 : Nat) = 1998 from rfl]
  have hskip : ∀ r, 1988 + k < r → r ≤ 1998 → matchAt t3ex pat r = false := by
    intro r h1 h2
    obtain ⟨j, hj⟩ : ∃ j, r = 1988 + j := ⟨r - 1988, by omega⟩
    subst hj
    rw [matchAt_t3 pat j, hp]
    exact hr j (by omega) (by omega)
  rw [rfindDown_skip t3ex pat 1800 1998 (1988 + k) (by omega) (by omega) hskip]
  refine rfindDown_hit t3ex pat 1800 (1988 + k) (by omega) ?_
  rw [matchAt_t3 pat k, hp]
  exact hm

theorem rfind_t3_1 : rfind t3ex ['.', ' '] 1800 2000 = some 1988 := by
  have h := rfind_t3ex ['.', ' '] (by decide) 0 (by decide) (by decide) (by decide)
  rwa [show (1988 + 0 : Nat) = 1988 from rfl] at h

theorem rfind_t3_2 : rfind t3ex ['!', ' '] 1800 2000 = some 1990 := by
  have h := rfind_t3ex ['!', ' '] (by decide) 2 (by decide) (by decide) (by decide)
  rwa [show (1988 + 2 : Nat) = 1990 from rfl] at h

theorem rfind_t3_3 : rfind t3ex ['?', ' '] 1800 2000 = some 1992 := by
  have h := rfind_t3ex ['?', ' '] (by decide) 4 (by decide) (by decide) (by decide)
  rwa [show (1988 + 4 : Nat) = 1992 from rfl] at h

theorem rfind_t3_4 : rfind t3ex ['.', '\n'] 1800 2000 = some 1994 := by
  have h := rfind_t3ex ['.', '\n'] (by decide) 6 (by decide) (by decide) (by decide)
  rwa [show (1988 + 6 : Nat) = 1994 from rfl] at h

theorem rfind_t3_5 : rfind t3ex ['!', '\n'] 1800 2000 = some 1996 := by
  have h := rfind_t3ex ['!', '\n'] (by decide) 8 (by decide) (by decide) (by decide)
  rwa [show (1988 + 8 : Nat) = 1996 from rfl] at h

theorem rfind_t3_6 : rfind t3ex ['?', '\n'] 1800 2000 = some 1998 := by
  have h := rfind_t3ex ['?', '\n'] (by decide) 10 (by decide) (by decide) (by decide)
  rwa [show (1988 + 10 : Nat) = 1998 from rfl] at h

theorem seFold_t3 : sentenceEndFold t3ex 1800 2000 = 1998 := by
  have e1 : seStep t3ex 1800 2000 (-1) ['.', ' '] = 1990 := by
    rw [seStep_some t3ex 1800 2000 (-1) ['.', ' '] 1988 rfind_t3_1]
    decide
  have e2 : seStep t3ex 1800 2000 1990 ['!', ' '] = 1990 := by
    rw [seStep_some t3ex 1800 2000 1990 ['!', ' '] 1990 rfind_t3_2]
    decide
  have e3 : seStep t3ex 1800 2000 1990 ['?', ' '] = 1994 := by
    rw [seStep_some t3ex 1800 2000 1990 ['?', ' '] 1992 rfind_t3_3]
    decide
  have e4 : seStep t3ex 1800 2000 1994 ['.', '\n'] = 1994 := by
    rw [seStep_some t3ex 1800 2000 1994 ['.', '\n'] 1994 rfind_t3_4]
    decide
  have e5 : seStep t3ex 1800 2000 1994 ['!', '\n'] = 1998 := by
    rw [seStep_some t3ex 1800 2000 1994 ['!', '\n'] 1996 rfind_t3_5]
    decide
  have e6 : seStep t3ex 1800 2000 1998 ['?', '\n'] = 1998 := by
    rw [seStep_some t3ex 1800 2000 1998 ['?', '\n'] 1998 rfind_t3_6]
    decide
  unfold sentenceEndFold sentencePatterns
  rw [List.foldl_cons, e1, List.foldl_cons, e2, List.foldl_cons, e3,
    List.foldl_cons, e4, List.foldl_cons, e5, List.foldl_cons, e6, List.foldl_nil]

theorem windowHi_t3 : windowHi t3ex 0 = 2000 := by
  rw [windowHi_eq, t3ex_length]
  omega

theorem windowLo_t3 : windowLo t3ex 0 = 1800 := by
  rw [windowLo_eq, t3ex_length]
  omega

theorem computeEnd_t3 : computeEnd t3ex 0 = 1998 := by
  unfold computeEnd
  rw [pyLen_eq_length, t3ex_length, windowHi_t3, windowLo_t3]
  rw [if_pos (by omega), seFold_t3, if_pos (by decide)]
  decide

theorem t3_strip_ne : pyStrip t3ex ≠ [] := by
  have h := pyStrip_length_ge (List.replicate 1988 'a') t3tail
    (by intro c hc; rw [List.eq_of_mem_replicate hc]; decide)
  rw [show List.replicate 1988 'a' ++ t3tail = t3ex from rfl] at h
  simp only [List.length_replicate] at h
  intro hnil
  rw [hnil] at h
  simp at h

theorem t3_take : t3ex.take 1998 = List.replicate 1988 'a' ++ t3tail.take 10 := by
  unfold t3ex
  rw [show (1998 : Nat) = (List.replicate 1988 'a').length + 10 from by simp]
  exact List.take_append 10

theorem t3_keep : minChunkSize ≤ (pyStrip (t3ex.take 1998)).length := by
  rw [t3_take]
  have h := pyStrip_length_ge (List.replicate 1988 'a') (t3tail.take 10)
    (by intro c hc; rw [List.eq_of_mem_replicate hc]; decide)
  simp only [List.length_replicate] at h
  unfold minChunkSize
  omega

theorem t3_chunks : createTextChunks t3ex =
    (pyStrip (t3ex.take 1998),
      ⟨0, 0, 1998, (pyStrip (t3ex.take 1998)).length, 2100⟩) ::
      chunkLoop t3ex 2100 (nextStartPos t3ex 0) 1 := by
  unfold createTextChunks
  rw [if_neg t3_strip_ne, pyLen_eq_length, t3ex_length]
  rw [chunkLoop_succ t3ex 2100 0 0 (by rw [t3ex_length]; omega)]
  rw [List.drop_zero, computeEnd_t3, Nat.sub_zero, t3ex_length]
  rw [if_pos (Or.inl t3_keep)]

theorem delimAt_t3_1988 : delimAt t3ex 1988 = true := by
  unfold delimAt sentencePatterns
  simp only [List.any_cons, List.any_nil]
  rw [show (1988 : Nat) = 1988 + 0 from rfl]
  simp only [matchAt_t3]
  decide

theorem delimAt_t3_1998 : delimAt t3ex 1998 = true := by
  unfold delimAt sentencePatterns
  simp only [List.any_cons, List.any_nil]
  rw [show (1998 : Nat) = 1988 + 10 from rfl]
  simp only [matchAt_t3]
  decide

/-! Claim C3 (sentence-boundary selection). -/

/-- C3, counterexample: on t3ex the first chunk is non-final
(chunk_end = 1998 < 2100) and its search window [1800, 2000) contains a
delimiter starting at 1998 (the latest one), yet the chunk ends at
1998, not just after that latest delimiter (which would be 2000): the
loop at lines 126-129 compares the candidate position against the
previous position plus the pattern length, so a later delimiter of a
later-listed pattern starting exactly two characters after an earlier
one is skipped. -/
theorem c3_counterexample :
    ∃ c ∈ createTextChunks t3ex, c.2.chunk_end < t3ex.length ∧
      ∃ p, windowLo t3ex c.2.chunk_start ≤ p ∧ p + 2 ≤ windowHi t3ex c.2.chunk_start ∧
        delimAt t3ex p = true ∧ ¬ (p + 2 ≤ c.2.chunk_end) := by
  rw [t3_chunks]
  refine ⟨_, List.mem_cons_self _ _, ?_, 1998, ?_, ?_, delimAt_t3_1998, ?_⟩
  · show (1998 : Nat) < t3ex.length
    rw [t3ex_length]
    omega
  · show windowLo t3ex 0 ≤ 1998
    rw [windowLo_t3]
    omega
  · show 1998 + 2 ≤ windowHi t3ex 0
    rw [windowHi_t3]
  · show ¬ (1998 + 2 ≤ 1998)
    omega

/-- C3, amended: in every non-final iteration of create_text_chunks
(chunk_end < len(text)), if any of the six delimiters occurs within the
window [max(start + min_size, end - 200), end) of the tentative end,
the chunk's end is moved to just after one of the delimiter occurrences
in that window (not always the latest one: the comparison at line 128
measures the previous occurrence's end against the next occurrence's
start), so every such chunk ends on a sentence boundary. -/
theorem c3_boundary_amended (t : List Char) (c : List Char × ChunkMeta)
    (hc : c ∈ createTextChunks t) (hend : c.2.chunk_end < t.length)
    (p0 : Nat) (hlo : windowLo t c.2.chunk_start ≤ p0)
    (hhi : p0 + 2 ≤ windowHi t c.2.chunk_start) (hdel : delimAt t p0 = true) :
    ∃ p, windowLo t c.2.chunk_start ≤ p ∧ p + 2 ≤ windowHi t c.2.chunk_start ∧
      delimAt t p = true ∧ c.2.chunk_end = p + 2 := by
  unfold createTextChunks at hc
  split at hc
  · cases hc
  · obtain ⟨h1, h2, -, -, -⟩ := chunkLoop_mem_inv t _ _ _ c hc
    by_cases hcase : c.2.chunk_start + 2000 < t.length
    · obtain ⟨p, hp1, hp2, hp3, hp4⟩ :=
        computeEnd_boundary t c.2.chunk_start hcase p0 hlo hhi hdel
      exact ⟨p, hp1, hp2, hp3, by rw [h2, hp4]⟩
    · rw [h2, computeEnd_last t c.2.chunk_start (by omega)] at hend
      omega

/-- C3 witness: the amended boundary theorem applied to the first chunk
of t3ex, whose window contains a delimiter at 1988. -/
theorem c3_boundary_amended_witness :
    ∃ c ∈ createTextChunks t3ex, c.2.chunk_end < t3ex.length ∧
      ∃ p, windowLo t3ex c.2.chunk_start ≤ p ∧ p + 2 ≤ windowHi t3ex c.2.chunk_start ∧
        delimAt t3ex p = true ∧ c.2.chunk_end = p + 2 := by
  have hmem : (pyStrip (t3ex.take 1998),
      (⟨0, 0, 1998, (pyStrip (t3ex.take 1998)).length, 2100⟩ : ChunkMeta)) ∈
      createTextChunks t3ex := by
    rw [t3_chunks]
    exact List.mem_cons_self _ _
  have hend : (1998 : Nat) < t3ex.length := by
    rw [t3ex_length]
    omega
  refine ⟨_, hmem, hend, ?_⟩
  exact c3_boundary_amended t3ex _ hmem hend 1988
    (by rw [windowLo_t3]; omega) (by rw [windowHi_t3]; omega) delimAt_t3_1988

/-! Claim C6 (add length check). -/

/-- C6: add_document_chunks fails with LengthMismatch exactly when the
chunk and metadata counts differ; the error is raised before the
collection is touched (the state is returned unchanged), and on the
non-error path one fresh id per input text is generated and returned,
one per text in input order (ids are distinct and, when the store is
well-formed, unused by any stored record). -/
theorem c6_add_length_check (M : Type) (st : VDB M) (chunks : List (List Char))
    (metas : List M) :
    (chunks.length ≠ metas.length →
      addDocumentChunks M st chunks metas = (.error .lengthMismatch, st)) ∧
    (chunks.length = metas.length →
      (addDocumentChunks M st chunks metas).1 =
        .ok (List.range' st.nextId chunks.length) ∧
      (List.range' st.nextId chunks.length).length = chunks.length ∧
      (List.range' st.nextId chunks.length).Nodup ∧
      ((∀ r ∈ st.records, r.1 < st.nextId) →
        ∀ id ∈ List.range' st.nextId chunks.length, ∀ r ∈ st.records, id ≠ r.1)) := by
  constructor
  · intro h
    unfold addDocumentChunks
    rw [if_pos h]
  · intro h
    refine ⟨?_, List.length_range' _ _ _, List.nodup_range' _ _, ?_⟩
    · unfold addDocumentChunks
      rw [if_neg (fun hne => hne h)]
    · intro hlt id hid r hr
      have h1 := (List.mem_range'_1.mp hid).1
      have h2 := hlt r hr
      omega

/-- C6 witness: the length check and the id generation at concrete
inputs: two texts against three metadata entries fail, one text against
one metadata entry returns the single fresh id. -/
theorem c6_add_length_check_witness :
    addDocumentChunks Unit ⟨false, [], 0⟩ [['a'], ['b']] [(), (), ()] =
      (.error .lengthMismatch, ⟨false, [], 0⟩) ∧
    (addDocumentChunks Unit ⟨false, [], 0⟩ [['a']] [()]).1 = .ok [0] := by
  constructor
  · exact (c6_add_length_check Unit ⟨false, [], 0⟩ [['a'], ['b']] [(), (), ()]).1
      (by decide)
  · have h := ((c6_add_length_check Unit ⟨false, [], 0⟩ [['a']] [()]).2 (by decide)).1
    rwa [show List.range' 0 ([['a']] : List (List Char)).length = [0] from rfl] at h

/-! Claims C7 and C10 (embedding empty-input handling). -/

/-- C7: generate_embedding fails with EmptyInput exactly when the trimmed
text is empty; generate_embeddings on a non-empty list fails with
AllInputsEmpty exactly when every entry is blank, and otherwise drops
the blank entries and returns one embedding per surviving entry in
their original relative order. -/
theorem c7_embedding_empty_errors (E : Type) (enc : List Char → E) (st : EmbSt)
    (t : List Char) (ts : List (List Char)) (hts : ts ≠ []) :
    ((generateEmbedding E enc st t).1 = .error .emptyInput ↔ pyStrip t = []) ∧
    ((generateEmbeddings E enc st ts).1 = .error .allEmpty ↔
      ∀ x ∈ ts, pyStrip x = []) ∧
    ((∃ x ∈ ts, pyStrip x ≠ []) →
      (generateEmbeddings E enc st ts).1 =
        .ok ((ts.filter (fun x => !(pyStrip x).isEmpty)).map enc)) := by
  have hpred : ∀ x : List Char, (!(pyStrip x).isEmpty) = false ↔ pyStrip x = [] := by
    intro x
    rw [Bool.not_eq_false', List.isEmpty_iff]
  refine ⟨?_, ?_, ?_⟩
  · unfold generateEmbedding
    by_cases h : pyStrip t = []
    · rw [if_pos h]
      simp [h]
    · rw [if_neg h]
      simp [h]
  · unfold generateEmbeddings
    rw [if_neg hts]
    by_cases hv : ts.filter (fun x => !(pyStrip x).isEmpty) = []
    · rw [if_pos hv]
      simp only [true_iff,
        show ((Except.error EmbError.allEmpty : Except EmbError (List E)), st).1 =
          Except.error EmbError.allEmpty from rfl]
      intro x hx
      have hfx := List.filter_eq_nil_iff.mp hv x hx
      rw [← hpred x]
      simpa using hfx
    · rw [if_neg hv]
      constructor
      · intro h
        cases h
      · intro hall
        exfalso
        apply hv
        rw [List.filter_eq_nil_iff]
        intro x hx
        rw [Bool.not_eq_true, hpred x]
        exact hall x hx
  · intro ⟨x, hx, hxe⟩
    unfold generateEmbeddings
    rw [if_neg hts]
    have hv : ts.filter (fun x => !(pyStrip x).isEmpty) ≠ [] := by
      apply List.ne_nil_of_mem (a := x)
      rw [List.mem_filter]
      refine ⟨hx, ?_⟩
      rw [Bool.not_eq_true', Bool.eq_false_iff]
      intro he
      exact hxe (List.isEmpty_iff.mp he)
    rw [if_neg hv]

/-- C7 witness: the error characterizations applied to the text "a" and
the list [" ", "a"], where only the second entry survives. -/
theorem c7_embedding_empty_errors_witness :
    ((generateEmbedding Unit (fun _ => ()) ⟨false⟩ ['a']).1 = .error .emptyInput ↔
      pyStrip ['a'] = []) ∧
    ((generateEmbeddings Unit (fun _ => ()) ⟨false⟩ [[' '], ['a']]).1 = .error .allEmpty ↔
      ∀ x ∈ [[' '], ['a']], pyStrip x = []) ∧
    ((∃ x ∈ [[' '], ['a']], pyStrip x ≠ []) →
      (generateEmbeddings Unit (fun _ => ()) ⟨false⟩ [[' '], ['a']]).1 =
        .ok (([[' '], ['a']].filter (fun x => !(pyStrip x).isEmpty)).map (fun _ => ()))) :=
  c7_embedding_empty_errors Unit (fun _ => ()) ⟨false⟩ ['a'] [[' '], ['a']] (by decide)

/-- C10: generate_embeddings applied to the empty list returns the empty
list with the state (and so the lazy encoder handle) untouched; the
AllInputsEmpty error occurs only when the input list is non-empty and
every entry is blank. -/
theorem c10_empty_list_noop (E : Type) (enc : List Char → E) (st : EmbSt) :
    generateEmbeddings E enc st [] = (.ok [], st) ∧
    ∀ ts, (generateEmbeddings E enc st ts).1 = .error .allEmpty →
      ts ≠ [] ∧ ∀ x ∈ ts, pyStrip x = [] := by
  constructor
  · unfold generateEmbeddings
    rw [if_pos rfl]
  · intro ts herr
    by_cases hts : ts = []
    · subst hts
      unfold generateEmbeddings at herr
      rw [if_pos rfl] at herr
      cases herr
    · refine ⟨hts, ?_⟩
      by_cases hv : ts.filter (fun x => !(pyStrip x).isEmpty) = []
      · intro x hx
        have hfx := List.filter_eq_nil_iff.mp hv x hx
        rw [Bool.not_eq_true, Bool.not_eq_false', List.isEmpty_iff] at hfx
        exact hfx
      · exfalso
        unfold generateEmbeddings at herr
        rw [if_neg hts] at herr
        have herr2 : (if ts.filter (fun x => !(pyStrip x).isEmpty) = [] then
            ((Except.error EmbError.allEmpty : Except EmbError (List E)), st)
          else (Except.ok ((ts.filter (fun x => !(pyStrip x).isEmpty)).map enc),
            getModel st)).1 = Except.error EmbError.allEmpty := herr
        rw [if_neg hv] at herr2
        cases herr2

/-- C10 witness: the empty-list no-op and the error characterization
instantiated at a concrete encoder and unloaded state. -/
theorem c10_empty_list_noop_witness :
    generateEmbeddings Unit (fun _ => ()) ⟨false⟩ [] = (.ok [], ⟨false⟩) ∧
    ∀ ts, (generateEmbeddings Unit (fun _ => ()) ⟨false⟩ ts).1 = .error .allEmpty →
      ts ≠ [] ∧ ∀ x ∈ ts, pyStrip x = [] :=
  c10_empty_list_noop Unit (fun _ => ()) ⟨false⟩

/-! Dictionary lemmas for the batch-ingestion results map. -/

theorem dictLookup_insert_self (K V : Type) [DecidableEq K] (k : K) (v : V)
    (d : List (K × V)) :
    dictLookup K V k (dictInsert K V k v d) = some v := by
  induction d with
  | nil =>
    unfold dictInsert dictLookup
    rw [if_pos rfl]
  | cons kv d ih =>
    obtain ⟨k', v'⟩ := kv
    unfold dictInsert
    by_cases h : k' = k
    · rw [if_pos h]
      unfold dictLookup
      rw [if_pos rfl]
    · rw [if_neg h]
      unfold dictLookup
      rw [if_neg h]
      exact ih

theorem dictLookup_insert_ne (K V : Type) [DecidableEq K] (k k0 : K) (v : V)
    (d : List (K × V)) (h : k ≠ k0) :
    dictLookup K V k0 (dictInsert K V k v d) = dictLookup K V k0 d := by
  induction d with
  | nil =>
    unfold dictInsert dictLookup
    rw [if_neg h]
    rfl
  | cons kv d ih =>
    obtain ⟨k', v'⟩ := kv
    unfold dictInsert
    by_cases hk : k' = k
    · rw [if_pos hk]
      unfold dictLookup
      rw [if_neg h, if_neg (by rw [hk]; exact h)]
    · rw [if_neg hk]
      unfold dictLookup
      by_cases h0 : k' = k0
      · rw [if_pos h0, if_pos h0]
      · rw [if_neg h0, if_neg h0]
        exact ih

theorem mem_keys_insert (K V : Type) [DecidableEq K] (k : K) (v : V)
    (d : List (K × V)) (x : K) :
    x ∈ (dictInsert K V k v d).map Prod.fst ↔ x = k ∨ x ∈ d.map Prod.fst := by
  induction d with
  | nil => simp [dictInsert]
  | cons kv d ih =>
    obtain ⟨k', v'⟩ := kv
    unfold dictInsert
    by_cases h : k' = k
    · rw [if_pos h]
      subst h
      simp
    · rw [if_neg h]
      simp only [List.map_cons, List.mem_cons, ih]
      constructor
      · rintro (h1 | h1 | h1)
        · exact Or.inr (Or.inl h1)
        · exact Or.inl h1
        · exact Or.inr (Or.inr h1)
      · rintro (h1 | h1 | h1)
        · exact Or.inr (Or.inl h1)
        · exact Or.inl h1
        · exact Or.inr (Or.inr h1)

theorem nodup_keys_insert (K V : Type) [DecidableEq K] (k : K) (v : V)
    (d : List (K × V)) (h : (d.map Prod.fst).Nodup) :
    ((dictInsert K V k v d).map Prod.fst).Nodup := by
  induction d with
  | nil => simp [dictInsert]
  | cons kv d ih =>
    obtain ⟨k', v'⟩ := kv
    rw [List.map_cons, List.nodup_cons] at h
    unfold dictInsert
    by_cases hk : k' = k
    · rw [if_pos hk]
      rw [List.map_cons, List.nodup_cons]
      subst hk
      exact h
    · rw [if_neg hk]
      rw [List.map_cons, List.nodup_cons]
      constructor
      · rw [mem_keys_insert]
        rintro (h1 | h1)
        · exact hk h1
        · exact h.1 h1
      · exact ih h.2

theorem dictLookup_isSome_of_mem_keys (K V : Type) [DecidableEq K] (x : K)
    (d : List (K × V)) (h : x ∈ d.map Prod.fst) :
    ∃ v, dictLookup K V x d = some v := by
  induction d with
  | nil => cases h
  | cons kv d ih =>
    obtain ⟨k', v'⟩ := kv
    unfold dictLookup
    by_cases h0 : k' = x
    · rw [if_pos h0]
      exact ⟨v', rfl⟩
    · rw [if_neg h0]
      rcases List.mem_cons.mp h with h1 | h1
    
      · exact absurd h1.symm h0
      · exact ih h1

theorem batchFold_mem_keys (I : Type) (ex : List Char → Bool)
    (ing : List Char → I → Except Unit (List Nat)) :
    ∀ (cfgs : List (IngestConfig I)) (d : List (Option (List Char) × List Nat)) (x),
      x ∈ (cfgs.foldl (fun d c =>
          dictInsert (Option (List Char)) (List Nat) c.pdfPath (entryResult I ex ing c) d) d).map
        Prod.fst ↔
      x ∈ d.map Prod.fst ∨ ∃ c ∈ cfgs, c.pdfPath = x := by
  intro cfgs
  induction cfgs with
  | nil => simp
  | cons c cfgs ih =>
    intro d x
    rw [List.foldl_cons, ih, mem_keys_insert]
    simp only [List.mem_cons]
    constructor
    · rintro ((h1 | h1) | h1)
      · exact Or.inr ⟨c, Or.inl rfl, h1.symm⟩
      · exact Or.inl h1
      · obtain ⟨c', hc', he⟩ := h1
        exact Or.inr ⟨c', Or.inr hc', he⟩
    · rintro (h1 | ⟨c', hc' | hc', he⟩)
      · exact Or.inl (Or.inr h1)
      · subst hc'
        exact Or.inl (Or.inl he.symm)
      · exact Or.inr ⟨c', hc', he⟩

theorem batchFold_nodup (I : Type) (ex : List Char → Bool)
    (ing : List Char → I → Except Unit (List Nat)) :
    ∀ (cfgs : List (IngestConfig I)) (d : List (Option (List Char) × List Nat)),
      (d.map Prod.fst).Nodup →
      ((cfgs.foldl (fun d c =>
          dictInsert (Option (List Char)) (List Nat) c.pdfPath (entryResult I ex ing c) d) d).map
        Prod.fst).Nodup := by
  intro cfgs
  induction cfgs with
  | nil => intro d h; exact h
  | cons c cfgs ih =>
    intro d h
    rw [List.foldl_cons]
    exact ih _ (nodup_keys_insert _ _ _ _ _ h)

theorem batchFold_lookup_absent (I : Type) (ex : List Char → Bool)
    (ing : List Char → I → Except Unit (List Nat)) :
    ∀ (cfgs : List (IngestConfig I)) (d : List (Option (List Char) × List Nat)) (k),
      (∀ c ∈ cfgs, c.pdfPath ≠ k) →
      dictLookup (Option (List Char)) (List Nat) k
        (cfgs.foldl (fun d c =>
          dictInsert (Option (List Char)) (List Nat) c.pdfPath (entryResult I ex ing c) d) d) =
      dictLookup (Option (List Char)) (List Nat) k d := by
  intro cfgs
  induction cfgs with
  | nil => intro d k _; rfl
  | cons c cfgs ih =>
    intro d k h
    rw [List.foldl_cons, ih _ k (fun c' hc' => h c' (List.mem_cons_of_mem c hc'))]
    exact dictLookup_insert_ne _ _ _ _ _ _ (h c (List.mem_cons_self c cfgs))

/-! Claim C8 (batch-ingestion failure isolation). -/

/-- C8: batch_ingest_datasheets returns one map entry per configured
path (every config's path is a key, every key comes from some config,
and keys are unique — duplicate paths share one entry, as in any map);
a missing or falsy path, or an ingestion exception, contributes the
empty id list, and each entry's value is determined by its own config
alone (for a config whose path is not repeated later, the map holds
exactly its entryResult), so one failure never disturbs the other
entries. -/
theorem c8_batch_isolation (I : Type) (ex : List Char → Bool)
    (ing : List Char → I → Except Unit (List Nat))
    (configs : List (IngestConfig I)) :
    (∀ c ∈ configs, ∃ ids,
      dictLookup (Option (List Char)) (List Nat) c.pdfPath
        (batchIngestDatasheets I ex ing configs) = some ids) ∧
    ((batchIngestDatasheets I ex ing configs).map Prod.fst).Nodup ∧
    (∀ kv ∈ batchIngestDatasheets I ex ing configs, ∃ c ∈ configs, c.pdfPath = kv.1) ∧
    (∀ c : IngestConfig I,
      (c.pdfPath = none ∨ c.pdfPath = some [] ∨
        (∀ p, c.pdfPath = some p → ex p = false) ∨
        (∀ p, c.pdfPath = some p → ∃ e, ing p c.componentInfo = .error e)) →
      entryResult I ex ing c = []) ∧
    (∀ pre (c : IngestConfig I) post, configs = pre ++ c :: post →
      (∀ c' ∈ post, c'.pdfPath ≠ c.pdfPath) →
      dictLookup (Option (List Char)) (List Nat) c.pdfPath
        (batchIngestDatasheets I ex ing configs) = some (entryResult I ex ing c)) := by
  refine ⟨?_, ?_, ?_, ?_, ?_⟩
  · intro c hc
    apply dictLookup_isSome_of_mem_keys
    rw [batchIngestDatasheets, batchFold_mem_keys]
    exact Or.inr ⟨c, hc, rfl⟩
  · rw [batchIngestDatasheets]
    exact batchFold_nodup I ex ing configs [] (by simp)
  · intro kv hkv
    have hx : kv.1 ∈ (batchIngestDatasheets I ex ing configs).map Prod.fst :=
      List.mem_map_of_mem Prod.fst hkv
    rw [batchIngestDatasheets, batchFold_mem_keys] at hx
    rcases hx with h1 | h1
    · cases h1
    · exact h1
  · intro c hc
    rcases hp : c.pdfPath with _ | p
    · unfold entryResult
      rw [hp]
    · unfold entryResult
      rw [hp]
      show (if p = [] then [] else if ex p = false then []
        else match ing p c.componentInfo with
          | .ok ids => ids
          | .error _ => []) = []
      rcases hc with h1 | h1 | h1 | h1
      · rw [hp] at h1
        cases h1
      · rw [hp] at h1
        have hpe : p = [] := by injection h1
        rw [if_pos hpe]
      · by_cases hpe : p = []
        · rw [if_pos hpe]
        · rw [if_neg hpe, if_pos (h1 p hp)]
      · by_cases hpe : p = []
        · rw [if_pos hpe]
        · rw [if_neg hpe]
          obtain ⟨e, he⟩ := h1 p hp
          by_cases hex : ex p = false
          · rw [if_pos hex]
          · rw [if_neg hex, he]
  · intro pre c post hcfg hpost
    rw [batchIngestDatasheets, hcfg, List.foldl_append, List.foldl_cons]
    rw [batchFold_lookup_absent I ex ing post _ c.pdfPath hpost]
    exact dictLookup_insert_self _ _ _ _ _

/-- C8 witness: three configs — an existing path a, a missing path x and
a path b whose ingestion raises — give a three-entry map where a maps
to its ids and both failures map to []. -/
theorem c8_batch_isolation_witness :
    dictLookup (Option (List Char)) (List Nat) (some ['a'])
      (batchIngestDatasheets Unit ex0 ing0 cfgs0) = some [7, 8] ∧
    dictLookup (Option (List Char)) (List Nat) (some ['x'])
      (batchIngestDatasheets Unit ex0 ing0 cfgs0) = some [] ∧
    dictLookup (Option (List Char)) (List Nat) (some ['b'])
      (batchIngestDatasheets Unit ex0 ing0 cfgs0) = some [] := by
  have h := (c8_batch_isolation Unit ex0 ing0 cfgs0).2.2.2.2
  refine ⟨?_, ?_, ?_⟩
  · have ha := h [] ⟨some ['a'], ()⟩ [⟨some ['x'], ()⟩, ⟨some ['b'], ()⟩] rfl (by decide)
    rwa [show entryResult Unit ex0 ing0 ⟨some ['a'], ()⟩ = [7, 8] from by decide] at ha
  · have hx := h [⟨some ['a'], ()⟩] ⟨some ['x'], ()⟩ [⟨some ['b'], ()⟩] rfl (by decide)
    rwa [show entryResult Unit ex0 ing0 ⟨some ['x'], ()⟩ = [] from by decide] at hx
  · have hb := h [⟨some ['a'], ()⟩, ⟨some ['x'], ()⟩] ⟨some ['b'], ()⟩ [] rfl (by decide)
    rwa [show entryResult Unit ex0 ing0 ⟨some ['b'], ()⟩ = [] from by decide] at hb

end VoltZ
